import Mathlib

/-!
# Verification of the `hashtable_shm` repository

Shallow embedding of the two core data structures of the repository and of the
server worker's request dispatch loop:

* `RingBuffer` — the fixed-capacity (`BUFFER_SIZE = 10`) circular buffer of
  `src/hashtable_shm/src/shm_ipc.rs`, with its "gap-of-one" full condition.
  The pthread mutex/condition fields only guard the sequential state modelled
  here, so the embedding keeps the payload array (as a `List`), `read_pos` and
  `write_pos`.  `put` returns the `Result` together with the post state, so a
  failed `put` provably leaves the state untouched; `get` models the body that
  runs once the caller holds the lock and data is available.
* `HashTable` — the bucket-sharded chained hash table of
  `src/hashtable_shm/src/hashtable.rs`.  Buckets are lists of entries; the
  `DefaultHasher` is abstracted as an arbitrary function `hasher : K → Nat`
  (the code takes `hasher.finish() as usize % self.size`, so only the final
  `% size` is concrete).  The linked-list removal idiom of `delete`
  (`split_off`, `pop_front`, `append`) is exactly `List.eraseIdx`.
* `processRequest` — the response construction of the worker loop in
  `src/hashtable_shm_server/src/main.rs` (lines 68–117), instantiated like the
  server at `K = V = u32` (modelled as `Nat`).
-/

namespace HashtableShm

/-! ## Ring buffer (`shm_ipc.rs`) -/

/-- `const BUFFER_SIZE: usize = 10;` -/
def BUFFER_SIZE : Nat := 10

/-- The `Error` enum of `shm_ipc.rs`.  `RustixIo` carries an OS errno,
`MutexInit`/`CondInit` carry a message; only `BufferFull` is produced by the
ring-buffer code itself. -/
inductive ShmError where
  | RustixIo : Nat → ShmError
  | MutexInit : String → ShmError
  | CondInit : String → ShmError
  | BufferFull : ShmError
deriving DecidableEq

/-- `RingBuffer<T>`: `buffer: [T; BUFFER_SIZE]`, `read_pos: usize`,
`write_pos: usize` (the embedded pthread primitives have no sequential
content). -/
structure RingBuffer (T : Type) where
  buffer : List T
  read_pos : Nat
  write_pos : Nat
deriving DecidableEq

namespace RingBuffer

variable {T : Type}

/-- `RingBuffer::init` (lines 236–242): zero both positions.  The payload
array is left as-is. -/
def init (s : RingBuffer T) : RingBuffer T :=
  { s with read_pos := 0, write_pos := 0 }

/-- `RingBuffer::put` (lines 249–272).  Returns the `Result` paired with the
post state of `&mut self`. -/
def put (s : RingBuffer T) (data : T) : Except ShmError Unit × RingBuffer T :=
  if (s.write_pos + 1) % BUFFER_SIZE = s.read_pos then
    (Except.error ShmError.BufferFull, s)
  else
    (Except.ok Unit.unit,
      { s with
        buffer := s.buffer.set s.write_pos data,
        write_pos := (s.write_pos + 1) % BUFFER_SIZE })

/-- `RingBuffer::get` (lines 279–307), the body executed under the lock once
data is available: read the slot at `read_pos` and advance it. -/
def get [Inhabited T] (s : RingBuffer T) : T × RingBuffer T :=
  (s.buffer.getD s.read_pos default,
    { s with read_pos := (s.read_pos + 1) % BUFFER_SIZE })

/-- Structural facts the Rust type system gives for free: the payload array
has exactly `BUFFER_SIZE` slots, and both indices are in range (they are only
ever written as `_ % BUFFER_SIZE` or `0`). -/
def Valid (s : RingBuffer T) : Prop :=
  s.buffer.length = BUFFER_SIZE ∧ s.read_pos < BUFFER_SIZE ∧ s.write_pos < BUFFER_SIZE

instance (s : RingBuffer T) : Decidable s.Valid := by
  unfold Valid; infer_instance

/-- Number of occupied slots: distance from `read_pos` to `write_pos`,
mod `BUFFER_SIZE`. -/
def count (s : RingBuffer T) : Nat :=
  (s.write_pos + BUFFER_SIZE - s.read_pos) % BUFFER_SIZE

/-- The abstract FIFO contents: the occupied slots, oldest first. -/
def contents [Inhabited T] (s : RingBuffer T) : List T :=
  (List.range s.count).map fun i => s.buffer.getD ((s.read_pos + i) % BUFFER_SIZE) default

end RingBuffer

/-! ## Hash table (`hashtable.rs`) -/

/-- The `Error` enum of `hashtable.rs`. -/
inductive TableError where
  | BucketSizeZero : TableError
  | KeyExists : TableError
  | KeyMissing : TableError
deriving DecidableEq

/-- `struct Entry<K, V> { key: K, val: V }` -/
structure Entry (K V : Type) where
  key : K
  val : V
deriving DecidableEq

/-- `struct HashTable<K, V> { size: usize, buckets: Vec<RwLock<LinkedList<Entry<K, V>>>> }`;
the per-bucket RW locks have no sequential content. -/
structure HashTable (K V : Type) where
  size : Nat
  buckets : List (List (Entry K V))
deriving DecidableEq

namespace HashTable

variable {K V : Type} [DecidableEq K]

/-- `HashTable::hash` (lines 50–55): `hasher.finish() as usize % self.size`.
The deterministic `DefaultHasher` pipeline up to `finish() as usize` is the
abstract `hasher : K → Nat`. -/
def hash (hasher : K → Nat) (t : HashTable K V) (key : K) : Nat :=
  hasher key % t.size

/-- `HashTable::new` (lines 38–48). -/
def new (size : Nat) : Except TableError (HashTable K V) :=
  if size = 0 then Except.error TableError.BucketSizeZero
  else Except.ok ⟨size, List.replicate size []⟩

/-- `HashTable::add` (lines 60–73): reject with `KeyExists` if the chain at
`hash(key)` already holds `key`, else `push_back` the new entry. -/
def add (hasher : K → Nat) (t : HashTable K V) (key : K) (val : V) :
    Except TableError (HashTable K V) :=
  let pos := t.hash hasher key
  let bucket := t.buckets.getD pos []
  if bucket.any fun x => x.key == key then Except.error TableError.KeyExists
  else Except.ok { t with buckets := t.buckets.set pos (bucket ++ [⟨key, val⟩]) }

/-- `HashTable::read` (lines 76–81): first matching entry's value, if any. -/
def read (hasher : K → Nat) (t : HashTable K V) (key : K) : Option V :=
  let pos := t.hash hasher key
  let bucket := t.buckets.getD pos []
  (bucket.find? fun x => x.key == key).map Entry.val

/-- `HashTable::delete` (lines 86–102): find the position of the first match;
`split_off` there, `pop_front` the match, `append` the rest — i.e. remove the
entry at that index (`List.eraseIdx`).  `KeyMissing` when no match. -/
def delete (hasher : K → Nat) (t : HashTable K V) (key : K) :
    Except TableError (HashTable K V) :=
  let pos := t.hash hasher key
  let bucket := t.buckets.getD pos []
  match bucket.findIdx? fun x => x.key == key with
  | some entry_pos =>
      Except.ok { t with buckets := t.buckets.set pos (bucket.eraseIdx entry_pos) }
  | none => Except.error TableError.KeyMissing

/-- Structural facts every table built by `new` enjoys (Rust's `Vec` length
is fixed and `size > 0` was checked): positive size and `size` buckets. -/
def WF (t : HashTable K V) : Prop :=
  0 < t.size ∧ t.buckets.length = t.size

instance (t : HashTable K V) : Decidable t.WF := by
  unfold WF; infer_instance

/-- The spec's table invariant: well-formed shape, no bucket chain holds two
entries with equal keys, and every entry sits in the bucket its key hashes
to. -/
def Inv (hasher : K → Nat) (t : HashTable K V) : Prop :=
  t.WF ∧
  ∀ i, i < t.buckets.length →
    ((t.buckets.getD i []).map Entry.key).Nodup ∧
    ∀ e ∈ t.buckets.getD i [], hasher e.key % t.size = i

end HashTable

/-- One client-visible table operation, as dispatched by the server worker. -/
inductive TableOp (K V : Type) where
  | add : K → V → TableOp K V
  | read : K → TableOp K V
  | delete : K → TableOp K V

/-- Apply one operation to the table; a rejected `add`/`delete` (and any
`read`) leaves the table as it was, exactly as the Rust methods return the
error before mutating. -/
def applyOp {K V : Type} [DecidableEq K] (hasher : K → Nat) (t : HashTable K V) :
    TableOp K V → HashTable K V
  | .add k v => match t.add hasher k v with
    | .ok t2 => t2
    | .error _ => t
  | .read _ => t
  | .delete k => match t.delete hasher k with
    | .ok t2 => t2
    | .error _ => t

/-- Apply an interleaving (as linearised by the per-bucket locks) of table
operations. -/
def applyOps {K V : Type} [DecidableEq K] (hasher : K → Nat) (t : HashTable K V)
    (ops : List (TableOp K V)) : HashTable K V :=
  ops.foldl (applyOp hasher) t

/-! ## Server worker (`hashtable_shm_server/src/main.rs`, lines 68–117) -/

/-- The `Operation` enum of `shm_ipc.rs`. -/
inductive Operation where
  | Read : Operation
  | Insert : Operation
  | Delete : Operation
deriving DecidableEq

/-- `struct Request<K, V>` of `shm_ipc.rs`. -/
structure Request (K V : Type) where
  operation : Operation
  key : K
  val : V
  counter : Nat
deriving DecidableEq

/-- `struct Response<K, V>` of `shm_ipc.rs`. -/
structure Response (K V : Type) where
  operation : Operation
  error : Bool
  key : K
  val : V
  counter : Nat
deriving DecidableEq

/-- The worker's `match request.operation { ... }` block: build the response
from the table's answer, instantiated, like the server, at `u32` keys and
values (here `Nat`).  Returns the response together with the table the shared
`Arc<HashTable>` now holds. -/
def processRequest (hasher : Nat → Nat) (t : HashTable Nat Nat)
    (request : Request Nat Nat) : Response Nat Nat × HashTable Nat Nat :=
  match request.operation with
  | .Read =>
    match t.read hasher request.key with
    | some value => (⟨.Read, false, request.key, value, request.counter⟩, t)
    | none => (⟨.Read, true, request.key, 0, request.counter⟩, t)
  | .Insert =>
    match t.add hasher request.key request.val with
    | .ok t2 => (⟨.Insert, false, request.key, request.val, request.counter⟩, t2)
    | .error _ => (⟨.Insert, true, request.key, request.val, request.counter⟩, t)
  | .Delete =>
    match t.delete hasher request.key with
    | .ok t2 => (⟨.Delete, false, request.key, 0, request.counter⟩, t2)
    | .error _ => (⟨.Delete, true, request.key, 0, request.counter⟩, t)

end HashtableShm

deriving instance DecidableEq for Except

namespace HashtableShm

/-! ## Helper lemmas -/

namespace HashTable

variable {K V : Type} [DecidableEq K]

theorem read_eq (hasher : K → Nat) (t : HashTable K V) (k : K) :
    t.read hasher k =
      ((t.buckets.getD (hasher k % t.size) []).find? fun x => x.key == k).map Entry.val :=
  rfl

theorem add_eq (hasher : K → Nat) (t : HashTable K V) (k : K) (v : V) :
    t.add hasher k v =
      if (t.buckets.getD (hasher k % t.size) []).any fun x => x.key == k then
        Except.error TableError.KeyExists
      else
        Except.ok { t with buckets := (t.buckets.set (hasher k % t.size)
          ((t.buckets.getD (hasher k % t.size) []) ++ [⟨k, v⟩])) } :=
  rfl

theorem delete_eq (hasher : K → Nat) (t : HashTable K V) (k : K) :
    t.delete hasher k =
      match (t.buckets.getD (hasher k % t.size) []).findIdx? fun x => x.key == k with
      | some entry_pos =>
          Except.ok { t with buckets := (t.buckets.set (hasher k % t.size)
            ((t.buckets.getD (hasher k % t.size) []).eraseIdx entry_pos)) }
      | none => Except.error TableError.KeyMissing :=
  rfl

/-- `read` misses exactly when the bucket chain holds no entry with the key. -/
theorem read_none_iff (hasher : K → Nat) (t : HashTable K V) (k : K) :
    t.read hasher k = none ↔
      ∀ e ∈ t.buckets.getD (hasher k % t.size) [], ¬e.key = k := by
  rw [read_eq]
  simp [List.find?_eq_none]

/-- `delete` fails (necessarily with `KeyMissing`) exactly when `read`
misses. -/
theorem delete_error_iff_read_none (hasher : K → Nat) (t : HashTable K V) (k : K) :
    t.delete hasher k = Except.error TableError.KeyMissing ↔
      t.read hasher k = none := by
  rw [delete_eq, read_none_iff]
  rcases hfi : (t.buckets.getD (hasher k % t.size) []).findIdx? fun x => x.key == k with _ | i
  · rw [hfi]
    rw [List.findIdx?_eq_none_iff] at hfi
    constructor
    · intro _ e he
      simpa using hfi e he
    · intro _
      rfl
  · rw [hfi]
    rw [List.findIdx?_eq_some_iff_getElem] at hfi
    obtain ⟨hi, hp, -⟩ := hfi
    simp only [beq_iff_eq] at hp
    constructor
    · intro h
      simp at h
    · intro h
      exact absurd hp (h _ (List.getElem_mem hi))

end HashTable

theorem list_getD_set_self {α : Type} (l : List α) (i : Nat) (a d : α)
    (h : i < l.length) : (l.set i a).getD i d = a := by
  rw [List.getD_eq_getElem?_getD, List.getElem?_set]
  simp [h]

theorem list_getD_set_ne {α : Type} (l : List α) {i j : Nat} (a d : α)
    (h : ¬i = j) : (l.set i a).getD j d = l.getD j d := by
  rw [List.getD_eq_getElem?_getD, List.getElem?_set_ne h, ← List.getD_eq_getElem?_getD]

namespace HashTable

variable {K V : Type} [DecidableEq K]

omit [DecidableEq K] in
/-- The bucket index is in range for a well-formed table. -/
theorem hash_lt (hasher : K → Nat) (t : HashTable K V) (k : K) (hwf : t.WF) :
    hasher k % t.size < t.buckets.length := by
  obtain ⟨hs, hl⟩ := hwf
  rw [hl]
  exact Nat.mod_lt _ hs

/-- Anatomy of a successful `add`: the chain had no entry with the key, and
the new table is the old one with the new entry appended to that chain. -/
theorem add_ok_anatomy (hasher : K → Nat) (t t2 : HashTable K V) (k : K) (v : V)
    (hadd : t.add hasher k v = Except.ok t2) :
    ((t.buckets.getD (hasher k % t.size) []).any fun x => x.key == k) = false ∧
    t2 = { t with buckets := (t.buckets.set (hasher k % t.size)
      ((t.buckets.getD (hasher k % t.size) []) ++ [⟨k, v⟩])) } := by
  rw [add_eq] at hadd
  by_cases hany : ((t.buckets.getD (hasher k % t.size) []).any fun x => x.key == k) = true
  · rw [if_pos hany] at hadd
    exact absurd hadd (by simp)
  · rw [if_neg hany] at hadd
    injection hadd with hadd
    exact ⟨Bool.of_not_eq_true hany, hadd.symm⟩

/-- `delete` when the scan finds the key at index `i`. -/
theorem delete_eq_ok_of_findIdx_some (hasher : K → Nat) (t : HashTable K V)
    (k : K) (i : Nat)
    (h : ((t.buckets.getD (hasher k % t.size) []).findIdx? fun x => x.key == k) = some i) :
    t.delete hasher k = Except.ok { t with buckets := (t.buckets.set (hasher k % t.size)
      ((t.buckets.getD (hasher k % t.size) []).eraseIdx i)) } := by
  rw [delete_eq, h]

/-- `read` misses when nothing in the chain matches. -/
theorem read_eq_none_of_nomatch (hasher : K → Nat) (t : HashTable K V) (k : K)
    (h : ∀ e ∈ t.buckets.getD (hasher k % t.size) [], ¬(e.key == k) = true) :
    t.read hasher k = none := by
  rw [read_eq, List.find?_eq_none.mpr h]
  rfl

end HashTable

/-! ## Theorems -/

/-- **C9.** For every ring buffer in the full state, `put` fails with
`BufferFull` without mutating any state: `read_pos`, `write_pos`, and every
buffer slot are the same after the failed `put` as before it. -/
theorem put_full_no_mutation {T : Type} (s : RingBuffer T) (x : T)
    (hfull : (s.write_pos + 1) % BUFFER_SIZE = s.read_pos) :
    (s.put x).1 = Except.error ShmError.BufferFull ∧
    (s.put x).2.read_pos = s.read_pos ∧
    (s.put x).2.write_pos = s.write_pos ∧
    (s.put x).2.buffer = s.buffer ∧
    (s.put x).2 = s := by
  simp [RingBuffer.put, hfull]

/-- Witness for C9 on a concrete full ring. -/
theorem put_full_no_mutation_witness :
    ((⟨List.replicate 10 0, 3, 2⟩ : RingBuffer Nat).put 5).1 =
        Except.error ShmError.BufferFull ∧
    ((⟨List.replicate 10 0, 3, 2⟩ : RingBuffer Nat).put 5).2.read_pos = 3 ∧
    ((⟨List.replicate 10 0, 3, 2⟩ : RingBuffer Nat).put 5).2.write_pos = 2 ∧
    ((⟨List.replicate 10 0, 3, 2⟩ : RingBuffer Nat).put 5).2.buffer =
        List.replicate 10 0 ∧
    ((⟨List.replicate 10 0, 3, 2⟩ : RingBuffer Nat).put 5).2 =
        ⟨List.replicate 10 0, 3, 2⟩ :=
  put_full_no_mutation ⟨List.replicate 10 0, 3, 2⟩ 5 (by decide)

/-- **C3.** `put` fails with `BufferFull` exactly when
`(write_pos + 1) % BUFFER_SIZE == read_pos`; a ring holding exactly
`BUFFER_SIZE - 1 = 9` elements rejects the next `put` with `BufferFull`, and
after one subsequent `get` a `put` succeeds again. -/
theorem ring_full_boundary {T : Type} [Inhabited T] (s : RingBuffer T)
    (h : s.Valid) :
    (∀ x : T, (s.put x).1 = Except.error ShmError.BufferFull ↔
      (s.write_pos + 1) % BUFFER_SIZE = s.read_pos) ∧
    (s.count = BUFFER_SIZE - 1 →
      ∀ x y : T, (s.put x).1 = Except.error ShmError.BufferFull ∧
        ((s.get.2).put y).1 = Except.ok Unit.unit) := by
  obtain ⟨hlen, hr, hw⟩ := h
  constructor
  · intro x
    constructor
    · intro hx
      by_contra hne
      simp [RingBuffer.put, hne] at hx
    · intro hfull
      simp [RingBuffer.put, hfull]
  · intro h9 x y
    have hfull : (s.write_pos + 1) % BUFFER_SIZE = s.read_pos := by
      unfold RingBuffer.count BUFFER_SIZE at *
      omega
    refine ⟨by simp [RingBuffer.put, hfull], ?_⟩
    have hne : ¬ (s.write_pos + 1) % BUFFER_SIZE = (s.read_pos + 1) % BUFFER_SIZE := by
      unfold BUFFER_SIZE at *
      omega
    simp [RingBuffer.get, RingBuffer.put, hne]

/-- Witness for C3: the concrete boundary scenario of the spec — a ring of
9 elements rejects `put`, and after one `get` a `put` succeeds. -/
theorem ring_full_boundary_witness :
    ((⟨List.replicate 10 0, 0, 9⟩ : RingBuffer Nat).put 5).1 =
        Except.error ShmError.BufferFull ∧
    ((((⟨List.replicate 10 0, 0, 9⟩ : RingBuffer Nat).get).2).put 6).1 =
        Except.ok Unit.unit :=
  (ring_full_boundary ⟨List.replicate 10 0, 0, 9⟩ (by decide)).2 (by decide) 5 6

/-- **C8.** `HashTable::new(size)` fails with `BucketSizeZero` exactly when
`size == 0`; for `size ≥ 1` it returns a table with exactly `size` buckets,
all empty; and neither a successful `add` nor a successful `delete` ever
changes the bucket count (or the stored `size`). -/
theorem new_bucket_count {K V : Type} [DecidableEq K] (hasher : K → Nat)
    (size : Nat) :
    ((HashTable.new size : Except TableError (HashTable K V)) =
        Except.error TableError.BucketSizeZero ↔ size = 0) ∧
    (0 < size →
      (HashTable.new size : Except TableError (HashTable K V)) =
        Except.ok ⟨size, List.replicate size []⟩ ∧
      (List.replicate size ([] : List (Entry K V))).length = size ∧
      ∀ b ∈ List.replicate size ([] : List (Entry K V)), b = []) ∧
    (∀ t t2 : HashTable K V, ∀ k v, t.add hasher k v = Except.ok t2 →
      t2.buckets.length = t.buckets.length ∧ t2.size = t.size) ∧
    (∀ t t2 : HashTable K V, ∀ k, t.delete hasher k = Except.ok t2 →
      t2.buckets.length = t.buckets.length ∧ t2.size = t.size) := by
  refine ⟨?_, ?_, ?_, ?_⟩
  · unfold HashTable.new
    split
    · simp_all
    · simp_all
  · intro hpos
    unfold HashTable.new
    rw [if_neg (by omega)]
    simp
  · intro t t2 k v h
    simp only [HashTable.add, HashTable.hash] at h
    split at h
    · exact absurd h (by simp)
    · injection h with h
      subst h
      simp
  · intro t t2 k h
    simp only [HashTable.delete, HashTable.hash] at h
    split at h
    next heq =>
      injection h with h
      subst h
      simp
    next => exact absurd h (by simp)

/-- **C2.** For every request processed by a server worker, the response
carries the same operation tag, key, and counter as the request; for a `Read`
the response has `val` equal to the stored value and `error = false` on hit,
and `val = 0` with `error = true` on miss; for an `Insert` it has `val` equal
to the inserted value and `error = false` on success, and `error = true` on
duplicate; for a `Delete` it has `val = 0`, with `error = true` exactly when
the key was absent. -/
theorem worker_response_spec (hasher : Nat → Nat) (t : HashTable Nat Nat)
    (r : Request Nat Nat) :
    ((processRequest hasher t r).1.operation = r.operation ∧
     (processRequest hasher t r).1.key = r.key ∧
     (processRequest hasher t r).1.counter = r.counter) ∧
    (r.operation = Operation.Read →
      (∀ v, t.read hasher r.key = some v →
        (processRequest hasher t r).1.val = v ∧
        (processRequest hasher t r).1.error = false) ∧
      (t.read hasher r.key = none →
        (processRequest hasher t r).1.val = 0 ∧
        (processRequest hasher t r).1.error = true)) ∧
    (r.operation = Operation.Insert →
      (∀ t2, t.add hasher r.key r.val = Except.ok t2 →
        (processRequest hasher t r).1.val = r.val ∧
        (processRequest hasher t r).1.error = false) ∧
      (t.add hasher r.key r.val = Except.error TableError.KeyExists →
        (processRequest hasher t r).1.error = true)) ∧
    (r.operation = Operation.Delete →
      (processRequest hasher t r).1.val = 0 ∧
      ((processRequest hasher t r).1.error = true ↔
        t.read hasher r.key = none)) := by
  obtain ⟨op, key, val, counter⟩ := r
  cases op
  case Read =>
    rcases hread : t.read hasher key with _ | v
    · simp [processRequest, hread]
    · simp [processRequest, hread]
  case Insert =>
    rcases hadd : t.add hasher key val with e | t2
    · simp [processRequest, hadd]
    · simp [processRequest, hadd]
  case Delete =>
    rcases hdel : t.delete hasher key with e | t2
    · have he : e = TableError.KeyMissing := by
        rw [HashTable.delete_eq] at hdel
        rcases hfi : (t.buckets.getD (hasher key % t.size) []).findIdx?
            fun x => x.key == key with _ | i
        · rw [hfi] at hdel
          simpa using hdel.symm
        · rw [hfi] at hdel
          simp at hdel
      subst he
      have hnone : t.read hasher key = none :=
        (HashTable.delete_error_iff_read_none hasher t key).mp hdel
      simp [processRequest, hdel, hnone]
    · have hne : ¬t.read hasher key = none := by
        intro hnone
        have := (HashTable.delete_error_iff_read_none hasher t key).mpr hnone
        rw [hdel] at this
        simp at this
      simp [processRequest, hdel, hne]

/-- **C5.** For every (well-formed) table, key `k`, and values `v` and `v2`:
after a successful `add(k, v)`, a second `add(k, v2)` fails with `KeyExists`
and mutates nothing — `read(k)` still yields `v`. -/
theorem add_duplicate_keyexists {K V : Type} [DecidableEq K] (hasher : K → Nat)
    (t t2 : HashTable K V) (k : K) (v v2 : V)
    (hwf : t.WF) (hadd : t.add hasher k v = Except.ok t2) :
    t2.add hasher k v2 = Except.error TableError.KeyExists ∧
    t2.read hasher k = some v := by
  obtain ⟨hany, ht2⟩ := HashTable.add_ok_anatomy hasher t t2 k v hadd
  have hpos := HashTable.hash_lt hasher t k hwf
  subst ht2
  have hb2 : ((t.buckets.set (hasher k % t.size)
        ((t.buckets.getD (hasher k % t.size) []) ++ [⟨k, v⟩])).getD
        (hasher k % t.size) []) =
      (t.buckets.getD (hasher k % t.size) []) ++ [⟨k, v⟩] :=
    list_getD_set_self _ _ _ _ hpos
  constructor
  · rw [HashTable.add_eq]
    simp only [hb2, List.any_append]
    rw [if_pos (by simp)]
  · rw [HashTable.read_eq]
    simp only [hb2, List.find?_append]
    rw [List.find?_eq_none.mpr (by simpa [List.any_eq_false] using hany)]
    simp

/-- Witness for C5 on a concrete two-bucket table with the identity hasher. -/
theorem add_duplicate_keyexists_witness :
    HashTable.add (fun k => k) ⟨2, [[], [⟨1, 7⟩]]⟩ 1 9 =
        Except.error TableError.KeyExists ∧
    HashTable.read (fun k => k) ⟨2, [[], [⟨1, 7⟩]]⟩ 1 = some 7 :=
  add_duplicate_keyexists (fun k => k) ⟨2, [[], []]⟩ ⟨2, [[], [⟨1, 7⟩]]⟩ 1 7 9
    (by decide) rfl

/-- **C6.** For every (well-formed) table and key `k`: after `add(k, v)` a
`delete(k)` succeeds and the subsequent `read(k)` reports absent; and
`delete` of an absent key fails with `KeyMissing` while leaving the table
unchanged, so the subsequent `read` still reports absent. -/
theorem add_delete_read_absent {K V : Type} [DecidableEq K] (hasher : K → Nat)
    (t t2 u : HashTable K V) (k : K) (v : V) (k2 : K)
    (hwf : t.WF) (hadd : t.add hasher k v = Except.ok t2)
    (hread : u.read hasher k2 = none) :
    (∃ t3, t2.delete hasher k = Except.ok t3 ∧ t3.read hasher k = none) ∧
    (u.delete hasher k2 = Except.error TableError.KeyMissing ∧
      u.read hasher k2 = none) := by
  refine ⟨?_, (HashTable.delete_error_iff_read_none hasher u k2).mpr hread, hread⟩
  obtain ⟨hany, ht2⟩ := HashTable.add_ok_anatomy hasher t t2 k v hadd
  have hpos := HashTable.hash_lt hasher t k hwf
  have hnomatch : ∀ e ∈ t.buckets.getD (hasher k % t.size) [], ¬(e.key == k) = true := by
    simpa [List.any_eq_false] using hany
  have hsize2 : t2.size = t.size := by rw [ht2]
  have hbuck2 : t2.buckets = t.buckets.set (hasher k % t.size)
      ((t.buckets.getD (hasher k % t.size) []) ++ [⟨k, v⟩]) := by rw [ht2]
  have hlen2 : t2.buckets.length = t.buckets.length := by
    rw [hbuck2, List.length_set]
  have hb2 : t2.buckets.getD (hasher k % t2.size) [] =
      (t.buckets.getD (hasher k % t.size) []) ++ [⟨k, v⟩] := by
    rw [hsize2, hbuck2]
    exact list_getD_set_self _ _ _ _ hpos
  have hfi : (((t.buckets.getD (hasher k % t.size) []) ++ [(⟨k, v⟩ : Entry K V)]).findIdx?
      fun x => x.key == k) = some (t.buckets.getD (hasher k % t.size) []).length := by
    rw [List.findIdx?_eq_some_iff_getElem]
    refine ⟨by simp, ?_, ?_⟩
    · rw [List.getElem_append_right (Nat.le_refl _)]
      simp
    · intro j hj
      rw [List.getElem_append_left hj]
      exact hnomatch _ (List.getElem_mem hj)
  have hdel : t2.delete hasher k = Except.ok { t2 with
      buckets := (t2.buckets.set (hasher k % t2.size)
        ((t2.buckets.getD (hasher k % t2.size) []).eraseIdx
          (t.buckets.getD (hasher k % t.size) []).length)) } :=
    HashTable.delete_eq_ok_of_findIdx_some hasher t2 k _ (by rw [hb2]; exact hfi)
  refine ⟨_, hdel, ?_⟩
  apply HashTable.read_eq_none_of_nomatch
  have herase : ((t.buckets.getD (hasher k % t.size) []) ++
      [(⟨k, v⟩ : Entry K V)]).eraseIdx
        (t.buckets.getD (hasher k % t.size) []).length =
      t.buckets.getD (hasher k % t.size) [] := by
    simp [List.eraseIdx_eq_take_drop_succ]
  intro e he
  apply hnomatch
  dsimp only at he
  rw [hb2, herase] at he
  have hlt2 : hasher k % t2.size < t2.buckets.length := by
    rw [hsize2, hlen2]
    exact hpos
  rw [list_getD_set_self t2.buckets (hasher k % t2.size)
    (t.buckets.getD (hasher k % t.size) []) [] hlt2] at he
  exact he

/-- Witness for C6: concrete add-then-delete round trip plus a delete of an
absent key, on two-bucket tables with the identity hasher. -/
theorem add_delete_read_absent_witness :
    (∃ t3, HashTable.delete (fun k => k) ⟨2, [[], [⟨1, 7⟩]]⟩ 1 = Except.ok t3 ∧
      t3.read (fun k => k) 1 = none) ∧
    (HashTable.delete (fun k => k) (⟨2, [[], []]⟩ : HashTable Nat Nat) 1 =
        Except.error TableError.KeyMissing ∧
      HashTable.read (fun k => k) (⟨2, [[], []]⟩ : HashTable Nat Nat) 1 = none) :=
  add_delete_read_absent (fun k => k) ⟨2, [[], []]⟩ ⟨2, [[], [⟨1, 7⟩]]⟩
    ⟨2, [[], []]⟩ 1 7 1 (by decide) rfl rfl

/-- **C10.** A successful `delete(k)` on a (well-formed) table removes only
the first entry for `k` in its bucket chain: that entry's index `i` carried
key `k`, nothing before it matched, the chain becomes
`take i ++ drop (i+1)` (one entry shorter, relative order kept), and every
other bucket — and the table shape — is unchanged. -/
theorem delete_frame {K V : Type} [DecidableEq K] (hasher : K → Nat)
    (t t2 : HashTable K V) (k : K)
    (hwf : t.WF) (hdel : t.delete hasher k = Except.ok t2) :
    ∃ i, i < (t.buckets.getD (hasher k % t.size) []).length ∧
      (∀ e, (t.buckets.getD (hasher k % t.size) [])[i]? = some e → e.key = k) ∧
      (∀ j, j < i → ∀ e, (t.buckets.getD (hasher k % t.size) [])[j]? = some e →
        ¬e.key = k) ∧
      t2.buckets.getD (hasher k % t.size) [] =
        (t.buckets.getD (hasher k % t.size) []).take i ++
        (t.buckets.getD (hasher k % t.size) []).drop (i + 1) ∧
      (t2.buckets.getD (hasher k % t.size) []).length + 1 =
        (t.buckets.getD (hasher k % t.size) []).length ∧
      t2.size = t.size ∧ t2.buckets.length = t.buckets.length ∧
      (∀ j, ¬j = hasher k % t.size → t2.buckets.getD j [] = t.buckets.getD j []) := by
  rw [HashTable.delete_eq] at hdel
  rcases hfi : ((t.buckets.getD (hasher k % t.size) []).findIdx? fun x => x.key == k)
    with _ | i
  · rw [hfi] at hdel
    exact absurd hdel (by simp)
  · rw [hfi] at hdel
    dsimp only at hdel
    injection hdel with hdel
    subst hdel
    rw [List.findIdx?_eq_some_iff_getElem] at hfi
    obtain ⟨hi, hp, hbefore⟩ := hfi
    have hpos := HashTable.hash_lt hasher t k hwf
    have hbset : (t.buckets.set (hasher k % t.size)
        ((t.buckets.getD (hasher k % t.size) []).eraseIdx i)).getD
          (hasher k % t.size) [] =
        (t.buckets.getD (hasher k % t.size) []).eraseIdx i :=
      list_getD_set_self _ _ _ _ hpos
    dsimp only
    refine ⟨i, hi, ?_, ?_, ?_, ?_, rfl, List.length_set _ _ _, ?_⟩
    · intro e he
      rw [List.getElem?_eq_getElem hi] at he
      injection he with he
      subst he
      simpa using hp
    · intro j hj e he
      have hjlen : j < (t.buckets.getD (hasher k % t.size) []).length :=
        Nat.lt_trans hj hi
      rw [List.getElem?_eq_getElem hjlen] at he
      injection he with he
      subst he
      simpa using hbefore j hj
    · rw [hbset, List.eraseIdx_eq_take_drop_succ]
    · rw [hbset, List.length_eraseIdx, if_pos hi]
      omega
    · intro j hne
      exact list_getD_set_ne _ _ _ fun hh => hne hh.symm

/-- Witness for C10: delete the head of a two-entry chain in the second
bucket of a concrete table. -/
theorem delete_frame_witness :
    ∃ i, i < (([[], [⟨1, 7⟩, ⟨3, 8⟩]] : List (List (Entry Nat Nat))).getD
        (1 % 2) []).length ∧
      (∀ e, (([[], [⟨1, 7⟩, ⟨3, 8⟩]] : List (List (Entry Nat Nat))).getD
        (1 % 2) [])[i]? = some e → e.key = 1) ∧
      (∀ j, j < i → ∀ e, (([[], [⟨1, 7⟩, ⟨3, 8⟩]] :
        List (List (Entry Nat Nat))).getD (1 % 2) [])[j]? = some e →
        ¬e.key = 1) ∧
      (([[], [⟨3, 8⟩]] : List (List (Entry Nat Nat))).getD (1 % 2) []) =
        (([[], [⟨1, 7⟩, ⟨3, 8⟩]] : List (List (Entry Nat Nat))).getD
          (1 % 2) []).take i ++
        (([[], [⟨1, 7⟩, ⟨3, 8⟩]] : List (List (Entry Nat Nat))).getD
          (1 % 2) []).drop (i + 1) ∧
      ((([[], [⟨3, 8⟩]] : List (List (Entry Nat Nat))).getD (1 % 2) []).length + 1 =
        (([[], [⟨1, 7⟩, ⟨3, 8⟩]] : List (List (Entry Nat Nat))).getD
          (1 % 2) []).length) ∧
      (2 : Nat) = 2 ∧
      ([[], [⟨3, 8⟩]] : List (List (Entry Nat Nat))).length =
        ([[], [⟨1, 7⟩, ⟨3, 8⟩]] : List (List (Entry Nat Nat))).length ∧
      (∀ j, ¬j = 1 % 2 →
        ([[], [⟨3, 8⟩]] : List (List (Entry Nat Nat))).getD j [] =
        ([[], [⟨1, 7⟩, ⟨3, 8⟩]] : List (List (Entry Nat Nat))).getD j []) :=
  delete_frame (fun k => k) ⟨2, [[], [⟨1, 7⟩, ⟨3, 8⟩]]⟩ ⟨2, [[], [⟨3, 8⟩]]⟩ 1
    (by decide) rfl

/-! ## The table invariant is inductive -/

theorem inv_new {K V : Type} [DecidableEq K] (hasher : K → Nat) (size : Nat)
    (t0 : HashTable K V) (hnew : HashTable.new size = Except.ok t0) :
    t0.Inv hasher := by
  rw [HashTable.new] at hnew
  by_cases hz : size = 0
  · rw [if_pos hz] at hnew
    exact absurd hnew (by simp)
  · rw [if_neg hz] at hnew
    injection hnew with hnew
    subst hnew
    refine ⟨⟨Nat.pos_of_ne_zero hz, by simp⟩, ?_⟩
    intro i hi
    rw [List.length_replicate] at hi
    have hb : (List.replicate size ([] : List (Entry K V))).getD i [] = [] := by
      rw [List.getD_eq_getElem?_getD, List.getElem?_replicate]
      simp [hi]
    rw [hb]
    exact ⟨List.nodup_nil, by simp⟩

theorem inv_add {K V : Type} [DecidableEq K] (hasher : K → Nat)
    (t t2 : HashTable K V) (k : K) (v : V)
    (hinv : t.Inv hasher) (hadd : t.add hasher k v = Except.ok t2) :
    t2.Inv hasher := by
  obtain ⟨hwf, hbuckets⟩ := hinv
  obtain ⟨hany, ht2⟩ := HashTable.add_ok_anatomy hasher t t2 k v hadd
  have hpos := HashTable.hash_lt hasher t k hwf
  have hnomem : k ∉ (t.buckets.getD (hasher k % t.size) []).map Entry.key := by
    rw [List.any_eq_false] at hany
    intro hmem
    obtain ⟨e, he, hek⟩ := List.mem_map.mp hmem
    exact hany e he (by simp [hek])
  subst ht2
  refine ⟨⟨hwf.1, by rw [List.length_set]; exact hwf.2⟩, ?_⟩
  intro i hi
  rw [List.length_set] at hi
  by_cases hip : i = hasher k % t.size
  · subst hip
    rw [list_getD_set_self _ _ _ _ hpos]
    constructor
    · rw [List.map_append, List.nodup_append]
      refine ⟨(hbuckets _ hpos).1, List.nodup_singleton _, ?_⟩
      intro a ha hb
      rw [List.map_singleton, List.mem_singleton] at hb
      subst hb
      exact hnomem ha
    · intro e he
      rw [List.mem_append] at he
      rcases he with he | he
      · exact (hbuckets _ hpos).2 e he
      · rw [List.mem_singleton] at he
        subst he
        rfl
  · rw [list_getD_set_ne _ _ _ fun hh => hip hh.symm]
    exact hbuckets i hi

theorem inv_delete {K V : Type} [DecidableEq K] (hasher : K → Nat)
    (t t2 : HashTable K V) (k : K)
    (hinv : t.Inv hasher) (hdel : t.delete hasher k = Except.ok t2) :
    t2.Inv hasher := by
  obtain ⟨hwf, hbuckets⟩ := hinv
  have hpos := HashTable.hash_lt hasher t k hwf
  rw [HashTable.delete_eq] at hdel
  rcases hfi : ((t.buckets.getD (hasher k % t.size) []).findIdx? fun x => x.key == k)
    with _ | i
  · rw [hfi] at hdel
    exact absurd hdel (by simp)
  · rw [hfi] at hdel
    dsimp only at hdel
    injection hdel with hdel
    subst hdel
    refine ⟨⟨hwf.1, by rw [List.length_set]; exact hwf.2⟩, ?_⟩
    intro j hj
    rw [List.length_set] at hj
    by_cases hip : j = hasher k % t.size
    · subst hip
      rw [list_getD_set_self _ _ _ _ hpos]
      have hsub := List.eraseIdx_sublist (t.buckets.getD (hasher k % t.size) []) i
      constructor
      · exact List.Nodup.sublist (hsub.map Entry.key) (hbuckets _ hpos).1
      · intro e he
        exact (hbuckets _ hpos).2 e (hsub.subset he)
    · rw [list_getD_set_ne _ _ _ fun hh => hip hh.symm]
      exact hbuckets j hj

theorem inv_applyOp {K V : Type} [DecidableEq K] (hasher : K → Nat)
    (t : HashTable K V) (op : TableOp K V) (hinv : t.Inv hasher) :
    (applyOp hasher t op).Inv hasher := by
  cases op with
  | add k v =>
    rw [applyOp]
    rcases hadd : t.add hasher k v with e | t2
    · exact hinv
    · exact inv_add hasher t t2 k v hinv hadd
  | read k => exact hinv
  | delete k =>
    rw [applyOp]
    rcases hdel : t.delete hasher k with e | t2
    · exact hinv
    · exact inv_delete hasher t t2 k hinv hdel

theorem inv_applyOps {K V : Type} [DecidableEq K] (hasher : K → Nat)
    (t : HashTable K V) (ops : List (TableOp K V)) (hinv : t.Inv hasher) :
    (applyOps hasher t ops).Inv hasher := by
  induction ops generalizing t with
  | nil => exact hinv
  | cons op rest ih =>
    rw [applyOps, List.foldl_cons]
    exact ih (applyOp hasher t op) (inv_applyOp hasher t op hinv)

/-- **C1.** For every `size > 0` and every sequence of table operations
(`add`, `read`, `delete`) applied to a table built with `new(size)`, no
bucket chain ever contains two entries with equal keys, and every key that is
present resides in exactly the bucket with index `hash(key) % size`. -/
theorem table_invariant {K V : Type} [DecidableEq K] (hasher : K → Nat)
    (size : Nat) (t0 : HashTable K V) (ops : List (TableOp K V))
    (_hsize : 0 < size) (hnew : HashTable.new size = Except.ok t0) :
    (∀ i, i < (applyOps hasher t0 ops).buckets.length →
      (((applyOps hasher t0 ops).buckets.getD i []).map Entry.key).Nodup) ∧
    (∀ k i, i < (applyOps hasher t0 ops).buckets.length →
      (∃ e ∈ (applyOps hasher t0 ops).buckets.getD i [], e.key = k) →
      i = hasher k % (applyOps hasher t0 ops).size) := by
  have hinv := inv_applyOps hasher t0 ops (inv_new hasher size t0 hnew)
  obtain ⟨-, hbuckets⟩ := hinv
  refine ⟨fun i hi => (hbuckets i hi).1, ?_⟩
  intro k i hi ⟨e, he, hek⟩
  rw [← hek]
  exact ((hbuckets i hi).2 e he).symm

/-- Witness for C1: a concrete two-bucket table with the identity hasher and
a mixed operation sequence containing a duplicate add and a delete. -/
theorem table_invariant_witness :
    (∀ i, i < (applyOps (fun k => k) ⟨2, [[], []]⟩
        [TableOp.add 1 7, TableOp.add 3 8, TableOp.add 1 9, TableOp.read 3,
          TableOp.delete 1, TableOp.add 2 5]).buckets.length →
      (((applyOps (fun k => k) ⟨2, [[], []]⟩
        [TableOp.add 1 7, TableOp.add 3 8, TableOp.add 1 9, TableOp.read 3,
          TableOp.delete 1, TableOp.add 2 5]).buckets.getD i []).map
            Entry.key).Nodup) ∧
    (∀ k i, i < (applyOps (fun k => k) ⟨2, [[], []]⟩
        [TableOp.add 1 7, TableOp.add 3 8, TableOp.add 1 9, TableOp.read 3,
          TableOp.delete 1, TableOp.add 2 5]).buckets.length →
      (∃ e ∈ (applyOps (fun k => k) ⟨2, [[], []]⟩
        [TableOp.add 1 7, TableOp.add 3 8, TableOp.add 1 9, TableOp.read 3,
          TableOp.delete 1, TableOp.add 2 5]).buckets.getD i [], e.key = k) →
      i = k % (applyOps (fun k => k) ⟨2, [[], []]⟩
        [TableOp.add 1 7, TableOp.add 3 8, TableOp.add 1 9, TableOp.read 3,
          TableOp.delete 1, TableOp.add 2 5]).size) :=
  table_invariant (fun k => k) 2 ⟨2, [[], []]⟩
    [TableOp.add 1 7, TableOp.add 3 8, TableOp.add 1 9, TableOp.read 3,
      TableOp.delete 1, TableOp.add 2 5] (by decide) rfl

/-! ## Ring buffer: FIFO abstraction and the position invariant -/

/-- A successful `put` appends the element to the abstract FIFO contents. -/
theorem contents_put {T : Type} [Inhabited T] (s : RingBuffer T) (x : T)
    (h : s.Valid) (hok : (s.put x).1 = Except.ok Unit.unit) :
    (s.put x).2.contents = s.contents ++ [x] := by
  obtain ⟨buf, r, w⟩ := s
  obtain ⟨hlen, hr, hw⟩ := h
  dsimp only at hlen hr hw
  have hne : ¬(w + 1) % BUFFER_SIZE = r := by
    intro hfull
    simp [RingBuffer.put, hfull] at hok
  simp only [RingBuffer.put] at *
  rw [if_neg hne]
  dsimp only
  unfold RingBuffer.contents RingBuffer.count
  dsimp only
  unfold BUFFER_SIZE at *
  rw [show ((w + 1) % 10 + 10 - r) % 10 = (w + 10 - r) % 10 + 1 from by omega,
    List.range_succ, List.map_append]
  congr 1
  · apply List.map_congr_left
    intro i hi
    rw [List.mem_range] at hi
    have hidx : ¬w = (r + i) % 10 := by omega
    exact list_getD_set_ne _ _ _ hidx
  · rw [List.map_singleton, show (r + (w + 10 - r) % 10) % 10 = w from by omega]
    rw [list_getD_set_self _ _ _ _ (by omega)]

/-- `get` on a non-empty ring returns the oldest element and removes it from
the abstract FIFO contents. -/
theorem contents_get {T : Type} [Inhabited T] (s : RingBuffer T)
    (h : s.Valid) (hne : ¬s.read_pos = s.write_pos) :
    s.get.1 = s.contents.headD default ∧ s.get.2.contents = s.contents.tail := by
  obtain ⟨buf, r, w⟩ := s
  obtain ⟨hlen, hr, hw⟩ := h
  dsimp only at hlen hr hw hne
  unfold RingBuffer.get RingBuffer.contents RingBuffer.count
  dsimp only
  unfold BUFFER_SIZE at *
  have hc : (w + 10 - r) % 10 = ((w + 10 - r) % 10 - 1) + 1 := by omega
  constructor
  · rw [hc, List.range_succ_eq_map, List.map_cons, List.headD_cons,
      Nat.add_zero, Nat.mod_eq_of_lt hr]
  · rw [hc, List.range_succ_eq_map, List.map_cons, List.tail_cons, List.map_map]
    rw [show (w + 10 - (r + 1) % 10) % 10 = (w + 10 - r) % 10 - 1 from by omega]
    apply List.map_congr_left
    intro i hi
    rw [List.mem_range] at hi
    dsimp only [Function.comp]
    rw [show ((r + 1) % 10 + i) % 10 = (r + Nat.succ i) % 10 from by omega]

/-- Traces of completed ring operations starting from `init`: successful and
failed `put`s, and `get`s that completed (the ring was non-empty when the
body under the lock ran).  `p` counts the successful puts, `g` the completed
gets. -/
inductive RingTrace {T : Type} [Inhabited T] : RingBuffer T → Nat → Nat → Prop where
  | init (s : RingBuffer T) (hlen : s.buffer.length = BUFFER_SIZE) :
      RingTrace s.init 0 0
  | putOk (s : RingBuffer T) (p g : Nat) (x : T) (h : RingTrace s p g)
      (hok : (s.put x).1 = Except.ok Unit.unit) :
      RingTrace (s.put x).2 (p + 1) g
  | putFull (s : RingBuffer T) (p g : Nat) (x : T) (h : RingTrace s p g)
      (hfail : (s.put x).1 = Except.error ShmError.BufferFull) :
      RingTrace (s.put x).2 p g
  | getOk (s : RingBuffer T) (p g : Nat) (h : RingTrace s p g)
      (hne : ¬s.read_pos = s.write_pos) :
      RingTrace s.get.2 p (g + 1)

/-- **C4.** For every ring buffer starting from `init` and every sequence of
completed `put` and `get` operations, after each completed operation
`read_pos < BUFFER_SIZE` and `write_pos < BUFFER_SIZE` (both are `Nat`s, so
`0 ≤` holds by type), and the number of elements between `read_pos` and
`write_pos` (mod `BUFFER_SIZE`) equals the number of successful puts minus
the number of gets applied since `init`. -/
theorem ring_pos_invariant {T : Type} [Inhabited T] (s : RingBuffer T)
    (p g : Nat) (h : RingTrace s p g) :
    s.read_pos < BUFFER_SIZE ∧ s.write_pos < BUFFER_SIZE ∧ g ≤ p ∧
      s.count = p - g := by
  induction h with
  | init s hlen =>
    unfold RingBuffer.init RingBuffer.count BUFFER_SIZE
    dsimp only
    omega
  | putOk s p g x h hok ih =>
    obtain ⟨hr, hw, hg, hc⟩ := ih
    have hne : ¬(s.write_pos + 1) % BUFFER_SIZE = s.read_pos := by
      intro hfull
      simp [RingBuffer.put, hfull] at hok
    simp only [RingBuffer.put]
    rw [if_neg hne]
    unfold RingBuffer.count BUFFER_SIZE at *
    dsimp only
    omega
  | putFull s p g x h hfail ih =>
    have hfull : (s.write_pos + 1) % BUFFER_SIZE = s.read_pos := by
      by_contra hne
      simp [RingBuffer.put, hne] at hfail
    simp only [RingBuffer.put]
    rw [if_pos hfull]
    exact ih
  | getOk s p g h hne ih =>
    obtain ⟨hr, hw, hg, hc⟩ := ih
    unfold RingBuffer.get
    unfold RingBuffer.count BUFFER_SIZE at *
    dsimp only
    omega

/-- Witness for C4: the trace `init` then one successful `put` on a concrete
ring. -/
theorem ring_pos_invariant_witness :
    (((⟨List.replicate 10 0, 5, 7⟩ : RingBuffer Nat).init.put 4).2.read_pos <
        BUFFER_SIZE ∧
      ((⟨List.replicate 10 0, 5, 7⟩ : RingBuffer Nat).init.put 4).2.write_pos <
        BUFFER_SIZE ∧ 0 ≤ 1 ∧
      ((⟨List.replicate 10 0, 5, 7⟩ : RingBuffer Nat).init.put 4).2.count =
        1 - 0) :=
  ring_pos_invariant _ 1 0
    (RingTrace.putOk _ 0 0 4 (RingTrace.init ⟨List.replicate 10 0, 5, 7⟩ rfl) rfl)

/-- Counterexample to C7 as stated: on a non-empty ring (one stale element
`0` at slot 0, `read_pos = 0`, `write_pos = 1`), a successful `put 5`
followed by a single `get` returns the older element `0`, not `5`. -/
theorem ring_put_get_not_identity :
    ¬∀ (s : RingBuffer Nat) (x : Nat), (s.put x).1 = Except.ok Unit.unit →
      ((s.put x).2.get).1 = x := by
  intro hall
  have h := hall ⟨List.replicate 10 0, 0, 1⟩ 5 rfl
  exact absurd h (by decide)

/-- **C7 (amended).** For every valid ring buffer: a successful `put(x)`
appends `x` to the ring's FIFO contents; `get` on a non-empty ring returns
the oldest element and removes it (so elements are delivered in FIFO order:
if A is put before B, A is got before B); and on an *empty* ring a `put(x)`
followed by a single `get` returns a copy identical to `x`. -/
theorem ring_fifo {T : Type} [Inhabited T] (s : RingBuffer T) (h : s.Valid) :
    (∀ x, (s.put x).1 = Except.ok Unit.unit →
      (s.put x).2.contents = s.contents ++ [x]) ∧
    (¬s.read_pos = s.write_pos →
      s.get.1 = s.contents.headD default ∧
      s.get.2.contents = s.contents.tail) ∧
    (s.read_pos = s.write_pos →
      ∀ x, (s.put x).1 = Except.ok Unit.unit ∧ ((s.put x).2.get).1 = x) := by
  refine ⟨fun x hok => contents_put s x h hok, fun hne => contents_get s h hne, ?_⟩
  intro hempty x
  obtain ⟨buf, r, w⟩ := s
  obtain ⟨hlen, hr, hw⟩ := h
  dsimp only at hlen hr hw hempty
  subst hempty
  have hne : ¬(r + 1) % BUFFER_SIZE = r := by
    unfold BUFFER_SIZE
    omega
  simp only [RingBuffer.put]
  rw [if_neg hne]
  refine ⟨rfl, ?_⟩
  unfold RingBuffer.get
  dsimp only
  exact list_getD_set_self _ _ _ _ (by unfold BUFFER_SIZE at *; omega)

/-- Witness for the amended C7 on a concrete empty ring. -/
theorem ring_fifo_witness :
    ((⟨List.replicate 10 0, 2, 2⟩ : RingBuffer Nat).put 5).2.contents =
      (⟨List.replicate 10 0, 2, 2⟩ : RingBuffer Nat).contents ++ [5] ∧
    (((⟨List.replicate 10 0, 2, 2⟩ : RingBuffer Nat).put 5).2.get).1 = 5 :=
  ⟨(ring_fifo (⟨List.replicate 10 0, 2, 2⟩ : RingBuffer Nat) (by decide)).1 5 rfl,
   ((ring_fifo (⟨List.replicate 10 0, 2, 2⟩ : RingBuffer Nat) (by decide)).2.2
     rfl 5).2⟩

end HashtableShm
